import Mathlib

/-!
Verification of the 2-D computational-geometry library (`geometry.py`).

The library works with tolerance-based predicates over coordinates.  We embed
the code twice, sharing as much as possible:

* a generic core over any `LinearOrderedField K` (vector arithmetic, the
  tolerance kernel `equal`/`ptEq`, `ccw`, the `Polygon` constructor's
  deduplication, the monotone-chain convex hull, the rotating-calipers loop,
  and the validating constructors) — instantiated at `ℚ` where a claim can be
  decided by computation;
* an ℝ-specific layer for everything that uses `sqrt`, `atan2`, `sin`/`cos`
  (norms, projections, segment inclusion, segment distances, circles and
  intersection areas, the winding-number point-in-polygon test).
-/

namespace Geo

/-- 2-D point / vector with coordinates in `K` (`class Point` in the source). -/
structure Pt (K : Type) where
  x : K
  y : K
deriving DecidableEq, Repr

variable {K : Type} [LinearOrderedField K]

instance : Inhabited (Pt K) := ⟨⟨0, 0⟩⟩

instance : Add (Pt K) := ⟨fun a b => ⟨a.x + b.x, a.y + b.y⟩⟩

instance : Sub (Pt K) := ⟨fun a b => ⟨a.x - b.x, a.y - b.y⟩⟩

instance : Neg (Pt K) := ⟨fun a => ⟨-a.x, -a.y⟩⟩

/-- Scalar multiplication `p * k` (`Point.__mul__`). -/
def Pt.mul (a : Pt K) (k : K) : Pt K := ⟨a.x * k, a.y * k⟩

/-- Scalar division `p / k` (`Point.__truediv__`; its `assert other != 0` is
satisfied at every call site in the code paths we verify). -/
def Pt.div (a : Pt K) (k : K) : Pt K := ⟨a.x / k, a.y / k⟩

@[simp] theorem Pt.add_x (a b : Pt K) : (a + b).x = a.x + b.x := rfl
@[simp] theorem Pt.add_y (a b : Pt K) : (a + b).y = a.y + b.y := rfl
@[simp] theorem Pt.sub_x (a b : Pt K) : (a - b).x = a.x - b.x := rfl
@[simp] theorem Pt.sub_y (a b : Pt K) : (a - b).y = a.y - b.y := rfl
@[simp] theorem Pt.mul_x (a : Pt K) (k : K) : (a.mul k).x = a.x * k := rfl
@[simp] theorem Pt.mul_y (a : Pt K) (k : K) : (a.mul k).y = a.y * k := rfl
@[simp] theorem Pt.div_x (a : Pt K) (k : K) : (a.div k).x = a.x / k := rfl
@[simp] theorem Pt.div_y (a : Pt K) (k : K) : (a.div k).y = a.y / k := rfl

/-- The tolerance `EPS = 1e-8`. -/
def EPS : K := 1 / 100000000

/-- Python's built-in `abs` on a scalar. -/
def kabs (x : K) : K := if x < 0 then -x else x

theorem kabs_eq_abs (x : K) : kabs x = |x| := by
  unfold kabs
  rcases lt_trichotomy x 0 with h | h | h
  · rw [if_pos h, abs_of_neg h]
  · simp [h]
  · rw [if_neg (not_lt.mpr h.le), abs_of_pos h]

/-- `equal(a, b) = abs(a - b) < EPS`, the tolerance kernel. -/
def equal (a b : K) : Prop := kabs (a - b) < EPS

instance equal.dec (a b : K) : Decidable (equal a b) :=
  inferInstanceAs (Decidable (kabs (a - b) < EPS))

theorem EPS_pos : (0 : K) < EPS := by norm_num [EPS]

theorem equal_iff_abs (a b : K) : equal a b ↔ |a - b| < EPS := by
  rw [equal, kabs_eq_abs]

theorem equal_refl (a : K) : equal a a := by
  rw [equal_iff_abs]
  simpa using EPS_pos (K := K)

/-- `Point.__eq__`: componentwise tolerance equality. -/
def ptEq (a b : Pt K) : Prop := equal a.x b.x ∧ equal a.y b.y

instance ptEq.dec (a b : Pt K) : Decidable (ptEq a b) :=
  inferInstanceAs (Decidable (equal a.x b.x ∧ equal a.y b.y))

theorem ptEq_refl (a : Pt K) : ptEq a a := ⟨equal_refl _, equal_refl _⟩

/-- `Point.dot`. -/
def dot (a b : Pt K) : K := a.x * b.x + a.y * b.y

/-- `Point.cross`. -/
def cross (a b : Pt K) : K := a.x * b.y - a.y * b.x

/-- `Point.ccw`: `0` when the cross product is approx-zero, else its sign. -/
def ccw (a b : Pt K) : ℤ :=
  if equal (cross a b) 0 then 0 else if cross a b < 0 then -1 else 1

/-- `Line.__init__` / `Segment.__init__`: reject tolerance-equal endpoints
(`assert p1 != p2`), otherwise store copies of the two points. -/
structure LineK (K : Type) where
  p1 : Pt K
  p2 : Pt K

def mkLine (p1 p2 : Pt K) : Option (LineK K) :=
  if ptEq p1 p2 then none else some ⟨p1, p2⟩

/-- `Segment.__init__` delegates to `Line.__init__`: the same validation. -/
def mkSegment (p1 p2 : Pt K) : Option (LineK K) := mkLine p1 p2

/-- `Circle.__init__`: reject a non-positive radius (`assert radius > 0`),
otherwise store a copy of the center and the radius. -/
structure CircleK (K : Type) where
  center : Pt K
  radius : K

def mkCircle (c : Pt K) (r : K) : Option (CircleK K) :=
  if r > 0 then some ⟨c, r⟩ else none

/-- The loop of `Polygon.__init__`: starting from the list `acc` of already
stored vertices (in reverse), append each further point unless it is
tolerance-equal to the last stored one. -/
def polyNormRev (acc : List (Pt K)) : List (Pt K) → List (Pt K)
  | [] => acc
  | p :: ps =>
    if ptEq acc.headI p then polyNormRev acc ps else polyNormRev (p :: acc) ps

/-- `Polygon.__init__`: store the first point, then collapse consecutive
tolerance-duplicates.  (On an empty input the Python code raises an
`IndexError` reading `points[0]`; we return `[]`.) -/
def polyNorm : List (Pt K) → List (Pt K)
  | [] => []
  | p :: ps => (polyNormRev [p] ps).reverse

end Geo

namespace Geo

variable {K : Type} [LinearOrderedField K]

/-- Adjacent (non-cyclic) pairs of the stored vertex list are never
tolerance-equal: the invariant that `Polygon.__init__` actually establishes. -/
def linearNoDup (l : List (Pt K)) : Prop :=
  ∀ i : ℕ, i + 1 < l.length → ¬ ptEq (l.getD i default) (l.getD (i + 1) default)

/-- The claim's cyclic version: indices taken modulo the vertex count. -/
def cyclicNoDup (l : List (Pt K)) : Prop :=
  ∀ i : ℕ, i < l.length →
    ¬ ptEq (l.getD i default) (l.getD ((i + 1) % l.length) default)

instance cyclicNoDup.dec (l : List (Pt K)) : Decidable (cyclicNoDup l) :=
  inferInstanceAs (Decidable (∀ i : ℕ, i < l.length → ¬ ptEq _ _))

theorem polyNormRev_ne_nil (acc : List (Pt K)) (h : acc ≠ []) :
    ∀ ps, polyNormRev acc ps ≠ [] := by
  intro ps
  induction ps generalizing acc with
  | nil => simpa [polyNormRev] using h
  | cons p ps ih =>
    by_cases hc : ptEq acc.headI p
    · simpa [polyNormRev, hc] using ih acc h
    · simpa [polyNormRev, hc] using ih (p :: acc) (by simp)

/-- Adjacent distinctness, stated on the reversed accumulator. -/
def revAdjOk : List (Pt K) → Prop
  | [] => True
  | [_] => True
  | a :: b :: rest => ¬ ptEq b a ∧ revAdjOk (b :: rest)

theorem polyNormRev_adjOk (acc : List (Pt K)) (hne : acc ≠ [])
    (hacc : revAdjOk acc) : ∀ ps, revAdjOk (polyNormRev acc ps) := by
  intro ps
  induction ps generalizing acc with
  | nil => simpa [polyNormRev] using hacc
  | cons p ps ih =>
    by_cases hc : ptEq acc.headI p
    · simpa [polyNormRev, hc] using ih acc hne hacc
    · rw [polyNormRev, if_neg hc]
      refine ih (p :: acc) (by simp) ?_
      match acc, hne with
      | a :: rest, _ =>
        exact ⟨by simpa using hc, hacc⟩

theorem revAdjOk_getD (l : List (Pt K)) (h : revAdjOk l) :
    ∀ b : ℕ, b + 1 < l.length →
      ¬ ptEq (l.getD (b + 1) default) (l.getD b default) := by
  induction l with
  | nil => intro b hb; simp at hb
  | cons x xs ih =>
    intro b hb
    match xs, hb, h with
    | y :: ys, hb, h =>
      match b with
      | 0 => simpa [List.getD] using h.1
      | Nat.succ c =>
        have := ih h.2 c (by simpa using hb)
        simpa [List.getD] using this

theorem revAdjOk_reverse_linear (l : List (Pt K)) (h : revAdjOk l) :
    linearNoDup l.reverse := by
  intro i hi hEq
  rw [List.length_reverse] at hi
  have hi' : i < l.length := by omega
  rw [List.getD_eq_getElem?_getD, List.getD_eq_getElem?_getD,
      List.getElem?_reverse hi', List.getElem?_reverse hi] at hEq
  -- positions from the right end of `l`
  obtain ⟨b, hbl, h1, h2⟩ :
      ∃ b : ℕ, b + 1 < l.length ∧ l.length - 1 - i = b + 1 ∧
        l.length - 1 - (i + 1) = b :=
    ⟨l.length - 1 - (i + 1), by omega, by omega, rfl⟩
  rw [h1, h2, ← List.getD_eq_getElem?_getD, ← List.getD_eq_getElem?_getD] at hEq
  exact revAdjOk_getD l h b hbl hEq

/--
C3 (amended): for every non-empty input list the constructed polygon stores at
least one vertex, and no two vertices that are adjacent in the stored order
(indices `i` and `i+1`, without wrap-around) are tolerance-equal.  The
wrap-around pair is *not* covered: `Polygon.__init__` never compares the last
stored vertex with the first.
-/
theorem polygon_init_invariant (ps : List (Pt K)) (h : ps ≠ []) :
    1 ≤ (polyNorm ps).length ∧ linearNoDup (polyNorm ps) := by
  match ps, h with
  | p :: ps, _ =>
    rw [polyNorm]
    constructor
    · have h1 := polyNormRev_ne_nil (K := K) [p] (by simp) ps
      have h2 : (polyNormRev [p] ps).reverse ≠ [] := by simpa using h1
      exact List.length_pos.mpr h2
    · exact revAdjOk_reverse_linear _
        (polyNormRev_adjOk [p] (by simp) (by simp [revAdjOk]) ps)

/-- Witness for C3's amended statement at a concrete input. -/
theorem polygon_init_invariant_witness :
    ([⟨0, 0⟩, ⟨1, 0⟩] : List (Pt ℚ)) ≠ [] ∧
      1 ≤ (polyNorm ([⟨0, 0⟩, ⟨1, 0⟩] : List (Pt ℚ))).length ∧
      linearNoDup (polyNorm ([⟨0, 0⟩, ⟨1, 0⟩] : List (Pt ℚ))) :=
  ⟨by simp, polygon_init_invariant _ (by simp)⟩

/--
Counterexample to C3 as stated: for the input `[(0,0),(1,0),(0,0)]` the
constructor stores all three vertices (each point differs from its
predecessor), so the stored list has its last vertex tolerance-equal to the
first — the cyclic no-duplicate invariant fails.
-/
theorem polygon_init_cyclic_counterexample :
    (polyNorm ([⟨0, 0⟩, ⟨1, 0⟩, ⟨0, 0⟩] : List (Pt ℚ))).length = 3 ∧
      ¬ cyclicNoDup (polyNorm ([⟨0, 0⟩, ⟨1, 0⟩, ⟨0, 0⟩] : List (Pt ℚ))) := by
  have hval : polyNorm ([⟨0, 0⟩, ⟨1, 0⟩, ⟨0, 0⟩] : List (Pt ℚ)) =
      [⟨0, 0⟩, ⟨1, 0⟩, ⟨0, 0⟩] := by
    norm_num [polyNorm, polyNormRev, ptEq, equal, kabs, EPS, List.headI]
  rw [hval]
  constructor
  · simp
  · intro h
    have h2 := h 2 (by norm_num)
    apply h2
    norm_num [List.getD, ptEq, equal, kabs, EPS]

/--
C8: constructing a `Line` or a `Segment` fails exactly when the two points are
tolerance-equal; constructing a `Circle` fails exactly when the radius is
non-positive; on success the constructors store (copies of) their inputs.
-/
theorem constructor_validation :
    (∀ p q : Pt ℚ, (mkLine p q = none ↔ ptEq p q) ∧
        ∀ L : LineK ℚ, mkLine p q = some L → L.p1 = p ∧ L.p2 = q) ∧
      (∀ p q : Pt ℚ, (mkSegment p q = none ↔ ptEq p q) ∧
        ∀ L : LineK ℚ, mkSegment p q = some L → L.p1 = p ∧ L.p2 = q) ∧
      (∀ (c : Pt ℚ) (r : ℚ), (mkCircle c r = none ↔ r ≤ 0) ∧
        ∀ C : CircleK ℚ, mkCircle c r = some C → C.center = c ∧ C.radius = r) := by
  refine ⟨fun p q => ?_, fun p q => ?_, fun c r => ?_⟩
  · constructor
    · by_cases h : ptEq p q <;> simp [mkLine, h]
    · intro L hL
      by_cases h : ptEq p q <;> simp [mkLine, h] at hL
      exact ⟨by rw [← hL], by rw [← hL]⟩
  · constructor
    · by_cases h : ptEq p q <;> simp [mkSegment, mkLine, h]
    · intro L hL
      by_cases h : ptEq p q <;> simp [mkSegment, mkLine, h] at hL
      exact ⟨by rw [← hL], by rw [← hL]⟩
  · constructor
    · by_cases h : r > 0
      · simp only [mkCircle, if_pos h]
        simp [not_le.mpr h]
      · simp only [mkCircle, if_neg h]
        simp [not_lt.mp h]
    · intro C hC
      by_cases h : r > 0 <;> simp [mkCircle, h] at hC
      exact ⟨by rw [← hC], by rw [← hC]⟩

/-! ### Convex hull (`Polygon.convex_hull`, monotone chain) -/

/-- Python's `points.sort(key=lambda p: (p.y, p.x))`: strict lexicographic
`(y, x)` order used to insert a point after all smaller-or-equal ones,
which matches a stable ascending sort. -/
def keyLT (a b : Pt K) : Prop := a.y < b.y ∨ (a.y = b.y ∧ a.x < b.x)

instance keyLT.dec (a b : Pt K) : Decidable (keyLT a b) :=
  inferInstanceAs (Decidable (_ ∨ _))

def insYX (a : Pt K) : List (Pt K) → List (Pt K)
  | [] => [a]
  | b :: bs => if keyLT a b then a :: b :: bs else b :: insYX a bs

/-- Stable insertion sort by `(y, x)` ascending. -/
def sortYX : List (Pt K) → List (Pt K)
  | [] => []
  | a :: as => insYX a (sortYX as)

/-- The inner `while True` loop of the chain construction: `prev`/`curr` have
been popped off the stack whose remaining part (top first) is `rest`.  Pops
until the last three points make a non-clockwise turn, or the stack empties. -/
def popLoop (prev curr nxt : Pt K) (rest : List (Pt K)) : List (Pt K) :=
  if ccw (curr - prev) (nxt - curr) ≥ 0 then curr :: prev :: rest
  else
    match rest with
    | [] => [prev]
    | q :: rs => popLoop q prev nxt rs
termination_by rest.length
decreasing_by simp [List.length_cons]

/-- One iteration of the `for` loop over the remaining sorted points: run the
pop loop, then push `nxt`.  The stack `stk` is kept top-first and always has
at least two elements (`deque.pop()` on a shorter deque would raise). -/
def chainStep (stk : List (Pt K)) (nxt : Pt K) : List (Pt K) :=
  match stk with
  | c :: p :: rs => nxt :: popLoop p c nxt rs
  | _ => nxt :: stk

/-- `Polygon.convex_hull`: Andrew's monotone chain over the sorted vertices;
`≤ 2` vertices are returned as sorted, `3` are re-oriented CCW if needed,
otherwise the lower (`right`) and upper (`left`) chains are built, their
top elements dropped, and the concatenation re-wrapped in a `Polygon`. -/
def convexHull (pts : List (Pt K)) : List (Pt K) :=
  let sorted := sortYX pts
  let n := pts.length
  if n ≤ 2 then polyNorm sorted
  else if n = 3 then
    match sorted with
    | [a, b, c] =>
      if ccw (b - a) (c - a) < 0 then polyNorm [a, c, b] else polyNorm [a, b, c]
    | _ => polyNorm sorted
  else
    match sorted, sorted.reverse with
    | a :: b :: rest, c :: d :: restR =>
      let right := List.foldl chainStep [b, a] rest
      let left := List.foldl chainStep [d, c] restR
      polyNorm (right.tail.reverse ++ left.tail.reverse)
    | _, _ => polyNorm sorted

/-! ### Rotating calipers (`Polygon.diameter`) -/

/-- The scan choosing the start indices: `i` is the first index of minimal
`x`, `j` the first index of maximal `x` (strict comparisons against the
current best, exactly as the `for k in range(ch.n)` loop). -/
def extremalIJ (pts : List (Pt K)) : ℕ × ℕ :=
  (List.range pts.length).foldl
    (fun ij k =>
      (if (pts.getD k default).x < (pts.getD ij.1 default).x then k else ij.1,
       if (pts.getD ij.2 default).x < (pts.getD k default).x then k else ij.2))
    (0, 0)

/-- The `while i != sj or j != si` caliper loop, with explicit fuel.  The
tracked maximum distance does not influence control flow, so the loop is
modelled as returning `true` exactly when it exits within `fuel` further
iterations.  Each iteration advances `i` when `vi × vj < 0`, else `j`. -/
def dLoop (pts : List (Pt K)) (n si sj : ℕ) : ℕ → ℕ → ℕ → Bool
  | fuel, i, j =>
    if i = sj ∧ j = si then true
    else
      match fuel with
      | 0 => false
      | f + 1 =>
        let vi := pts.getD ((i + 1) % n) default - pts.getD i default
        let vj := pts.getD ((j + 1) % n) default - pts.getD j default
        if cross vi vj < 0 then dLoop pts n si sj f ((i + 1) % n) j
        else dLoop pts n si sj f i ((j + 1) % n)

/-- `Polygon.diameter` terminates on the given input vertex list: either the
hull has exactly two vertices (early return), or the caliper loop exits
after finitely many iterations. -/
def diameterTerminates (input : List (Pt K)) : Prop :=
  let ch := convexHull (polyNorm input)
  (ch.length = 2) ∨
    ∃ fuel, dLoop ch ch.length (extremalIJ ch).1 (extremalIJ ch).2 fuel
      (extremalIJ ch).1 (extremalIJ ch).2 = true

/--
C4: the convex hull of the polygon with vertices
`[(2,1),(0,0),(1,2),(2,2),(4,2),(1,3),(3,3)]` is exactly
`[(0,0),(2,1),(4,2),(3,3),(1,3)]`, in that order.
-/
theorem convex_hull_example :
    convexHull (polyNorm
        ([⟨2, 1⟩, ⟨0, 0⟩, ⟨1, 2⟩, ⟨2, 2⟩, ⟨4, 2⟩, ⟨1, 3⟩, ⟨3, 3⟩] : List (Pt ℚ))) =
      [⟨0, 0⟩, ⟨2, 1⟩, ⟨4, 2⟩, ⟨3, 3⟩, ⟨1, 3⟩] := by
  norm_num [polyNorm, polyNormRev, ptEq, equal, kabs, EPS, List.headI,
    convexHull, sortYX, insYX, keyLT, chainStep, popLoop, ccw, cross,
    List.foldl]

/-- `Line.is_including_point`: true when `p` tolerance-equals an endpoint or
the orientation of the direction against `p - p1` is the zero bucket. -/
def lineIncludes (p1 p2 q : Pt K) : Prop :=
  ptEq p1 q ∨ ptEq p2 q ∨ ccw (p2 - p1) (q - p1) = 0

instance lineIncludes.dec (p1 p2 q : Pt K) : Decidable (lineIncludes p1 p2 q) :=
  inferInstanceAs (Decidable (_ ∨ _ ∨ _))

theorem collinear_hull_eval :
    convexHull (polyNorm ([⟨0, 0⟩, ⟨1, 0⟩, ⟨2, 0⟩] : List (Pt ℚ))) =
      [⟨0, 0⟩, ⟨1, 0⟩, ⟨2, 0⟩] := by
  norm_num [polyNorm, polyNormRev, ptEq, equal, kabs, EPS, List.headI,
    convexHull, sortYX, insYX, keyLT, ccw, cross]

theorem collinear_extremal_eval :
    extremalIJ ([⟨0, 0⟩, ⟨1, 0⟩, ⟨2, 0⟩] : List (Pt ℚ)) = (0, 2) := by
  norm_num [extremalIJ, List.range_succ, List.getD]

/-- On the collinear three-vertex hull every caliper cross product vanishes,
so only `j` ever advances: from the start state `(0, 2)` the loop cycles
through `(0, 0)`, `(0, 1)`, back to `(0, 2)`, and the exit condition
`i = 2 ∧ j = 0` is never reached, whatever the fuel. -/
theorem collinear_dLoop_cycle :
    ∀ f : ℕ,
      dLoop ([⟨0, 0⟩, ⟨1, 0⟩, ⟨2, 0⟩] : List (Pt ℚ)) 3 0 2 f 0 2 = false ∧
      dLoop ([⟨0, 0⟩, ⟨1, 0⟩, ⟨2, 0⟩] : List (Pt ℚ)) 3 0 2 f 0 0 = false ∧
      dLoop ([⟨0, 0⟩, ⟨1, 0⟩, ⟨2, 0⟩] : List (Pt ℚ)) 3 0 2 f 0 1 = false := by
  intro f
  induction f with
  | zero => refine ⟨?_, ?_, ?_⟩ <;> simp [dLoop]
  | succ f ih =>
    obtain ⟨h2, h0, h1⟩ := ih
    refine ⟨?_, ?_, ?_⟩ <;>
      · rw [dLoop]
        norm_num [List.getD, cross]
        assumption

/--
C5: `Polygon.diameter` does not terminate on the collinear input
`[(0,0),(1,0),(2,0)]`.  The convex hull keeps all three collinear vertices,
the caliper start pair is `(i, j) = (0, 2)`, and the loop never exits.
-/
theorem diameter_nontermination :
    ¬ diameterTerminates ([⟨0, 0⟩, ⟨1, 0⟩, ⟨2, 0⟩] : List (Pt ℚ)) := by
  intro h
  rw [diameterTerminates] at h
  rw [collinear_hull_eval] at h
  rw [collinear_extremal_eval] at h
  rcases h with h | ⟨fuel, h⟩
  · simp at h
  · have := (collinear_dLoop_cycle fuel).1
    simp only [List.length_cons, List.length_nil] at h
    rw [this] at h
    exact Bool.false_ne_true h

end Geo

/-! ## The ℝ-valued layer: norms, projections, circles, winding numbers -/

namespace Geo

noncomputable section

open scoped Classical

/-- `Point.__abs__`: `(x**2 + y**2) ** 0.5`. -/
def absPt (v : Pt ℝ) : ℝ := Real.sqrt (v.x ^ 2 + v.y ^ 2)

/-- `Point.unit_vector`: the zero vector when the magnitude is approx-zero,
else the vector divided by its magnitude. -/
def unitVector (v : Pt ℝ) : Pt ℝ :=
  if equal (absPt v) 0 then ⟨0, 0⟩ else v.div (absPt v)

/-- `Point.rotate(theta, origin)`. -/
def rotatePt (p : Pt ℝ) (θ : ℝ) (o : Pt ℝ) : Pt ℝ :=
  o + ⟨(p - o).x * Real.cos θ - (p - o).y * Real.sin θ,
       (p - o).x * Real.sin θ + (p - o).y * Real.cos θ⟩

/-- `Line.projection`. -/
def projection (p1 p2 q : Pt ℝ) : Pt ℝ :=
  p1 + (p2 - p1).mul (dot (q - p1) (p2 - p1) / absPt (p2 - p1) ^ 2)

/-- `Segment.is_including_point`: the line test plus the scalar projection
parameter `ref` lying in `[0, |segment|]` with tolerant endpoints. -/
def segIncludes (p1 p2 q : Pt ℝ) : Prop :=
  lineIncludes p1 p2 q ∧
    (equal (dot (p2 - p1) (q - p1) / absPt (p2 - p1)) 0 ∨
     equal (dot (p2 - p1) (q - p1) / absPt (p2 - p1)) (absPt (p2 - p1)) ∨
     (0 < dot (p2 - p1) (q - p1) / absPt (p2 - p1) ∧
      dot (p2 - p1) (q - p1) / absPt (p2 - p1) < absPt (p2 - p1)))

/-- The closed operand set `{Line, Segment}` of the crossing predicates. -/
inductive LS where
  | line (q1 q2 : Pt ℝ)
  | seg (q1 q2 : Pt ℝ)

def LS.p1 : LS → Pt ℝ
  | .line a _ => a
  | .seg a _ => a

def LS.p2 : LS → Pt ℝ
  | .line _ b => b
  | .seg _ b => b

/-- `Line.is_parallel`: the cross product of the directions is approx-zero. -/
def isParallel (s o : LS) : Prop :=
  equal (cross (s.p2 - s.p1) (o.p2 - o.p1)) 0

/-- `Line._is_crossing_line`. -/
def lineCrossLine (s o : LS) : Prop :=
  lineIncludes s.p1 s.p2 o.p1 ∨ ¬ isParallel s o

/-- `Line._is_crossing_segment`. -/
def lineCrossSeg (s o : LS) : Prop :=
  lineIncludes s.p1 s.p2 o.p1 ∨ lineIncludes s.p1 s.p2 o.p2 ∨
    ccw (s.p2 - s.p1) (o.p1 - s.p1) * ccw (s.p2 - s.p1) (o.p2 - s.p1) < 0

/-- `Segment._is_crossing_segment` on the two endpoint pairs. -/
def segCrossSegPts (a b c d : Pt ℝ) : Prop :=
  segIncludes a b c ∨ segIncludes a b d ∨
  segIncludes c d a ∨ segIncludes c d b ∨
  (ccw (b - a) (c - a) ≠ ccw (b - a) (d - a) ∧
   ccw (d - c) (a - c) ≠ ccw (d - c) (b - c))

/-- `is_crossing` with Python's dynamic dispatch: the variant of the receiver
picks the method, the variant of the argument picks the branch inside it
(`Segment._is_crossing_line` delegates back to `Line._is_crossing_line` with
the operands swapped). -/
def isCrossing : LS → LS → Prop
  | .line a b, .line c d => lineCrossLine (.line a b) (.line c d)
  | .line a b, .seg c d => lineCrossSeg (.line a b) (.seg c d)
  | .seg a b, .line c d => lineCrossLine (.line c d) (.seg a b)
  | .seg a b, .seg c d => segCrossSegPts a b c d

/-- `Line.crossing_point` (inherited unchanged by `Segment`). -/
def crossingPoint (s o : LS) : Option (Pt ℝ) :=
  if isParallel s o ∨ ¬ isCrossing s o then none
  else
    if equal (cross (s.p2 - s.p1) (o.p2 - o.p1)) 0 ∧
        equal (cross (s.p2 - s.p1) (s.p2 - o.p1)) 0 then some o.p1
    else
      some (o.p1 + (o.p2 - o.p1).mul
        (cross (s.p2 - s.p1) (s.p2 - o.p1) / cross (s.p2 - s.p1) (o.p2 - o.p1)))

/--
C1 (amended): `crossing_point` returns `none` exactly when the supporting
lines are parallel (which includes every coincident pair) or `is_crossing`
is false, and otherwise returns the unique intersection point
`other.p1 + (other.p2 - other.p1) * (d2 / d1)`.  The coincident branch that
would return `other.p1` is unreachable: coincident lines are parallel, and
the parallel guard has already returned `none`.
-/
theorem crossing_point_spec (s o : LS) :
    crossingPoint s o =
      if isParallel s o ∨ ¬ isCrossing s o then none
      else
        some (o.p1 + (o.p2 - o.p1).mul
          (cross (s.p2 - s.p1) (s.p2 - o.p1) /
            cross (s.p2 - s.p1) (o.p2 - o.p1))) := by
  by_cases h : isParallel s o ∨ ¬ isCrossing s o
  · rw [crossingPoint, if_pos h, if_pos h]
  · rw [crossingPoint, if_neg h, if_neg h]
    have hnp : ¬ isParallel s o := fun hp => h (Or.inl hp)
    rw [if_neg]
    intro hc
    exact hnp hc.1

/--
Counterexample to C1 as stated: for the exactly coincident lines through
`(0,0),(1,0)` and `(0,0),(2,0)` both orientation determinants are
approx-zero, yet `crossing_point` returns `none`, not `other.p1`.
-/
theorem crossing_point_coincident_counterexample :
    equal (cross ((LS.line ⟨0, 0⟩ ⟨1, 0⟩).p2 - (LS.line ⟨0, 0⟩ ⟨1, 0⟩).p1)
        ((LS.line ⟨0, 0⟩ ⟨2, 0⟩).p2 - (LS.line ⟨0, 0⟩ ⟨2, 0⟩).p1)) 0 ∧
      equal (cross ((LS.line ⟨0, 0⟩ ⟨1, 0⟩).p2 - (LS.line ⟨0, 0⟩ ⟨1, 0⟩).p1)
        ((LS.line ⟨0, 0⟩ ⟨1, 0⟩).p2 - (LS.line ⟨0, 0⟩ ⟨2, 0⟩).p1)) 0 ∧
      crossingPoint (LS.line ⟨0, 0⟩ ⟨1, 0⟩) (LS.line ⟨0, 0⟩ ⟨2, 0⟩) =
        none := by
  have hpar : isParallel (LS.line ⟨0, 0⟩ ⟨1, 0⟩) (LS.line ⟨0, 0⟩ ⟨2, 0⟩) := by
    norm_num [isParallel, LS.p1, LS.p2, cross, equal, kabs, EPS]
  refine ⟨hpar, ?_, ?_⟩
  · norm_num [LS.p1, LS.p2, cross, equal, kabs, EPS]
  · rw [crossingPoint, if_pos (Or.inl hpar)]

/-! ### Circle–line intersection (`Circle.crossing_points_with_line`) -/

/-- `Line.distance_to_point`: distance from `q` to its projection. -/
def distLinePt (p1 p2 q : Pt ℝ) : ℝ := absPt (q - projection p1 p2 q)

theorem ptExt {A : Type} {a b : Pt A} (hx : a.x = b.x) (hy : a.y = b.y) :
    a = b := by
  cases a; cases b; simp_all

/-! ### Segment distances (`Segment.distance_to_point`/`distance_to_segment`) -/

/-- `Segment.distance_to_point`: distance to the projection when the segment
includes it, else the smaller distance to an endpoint. -/
def distToPointSeg (a b q : Pt ℝ) : ℝ :=
  if segIncludes a b (projection a b q) then absPt (q - projection a b q)
  else min (absPt (a - q)) (absPt (b - q))

/-- `Segment.distance_to_segment`: `0` when crossing, else the minimum of the
four endpoint-to-opposite-segment distances. -/
def distToSeg (a b c d : Pt ℝ) : ℝ :=
  if segCrossSegPts a b c d then 0
  else
    min (min (distToPointSeg a b c) (distToPointSeg a b d))
        (min (distToPointSeg c d a) (distToPointSeg c d b))

theorem absPt_nonneg (v : Pt ℝ) : 0 ≤ absPt v := Real.sqrt_nonneg _

theorem absPt_sub_eq_zero {p q : Pt ℝ} (h : absPt (p - q) = 0) : p = q := by
  have h2 : (p - q).x ^ 2 + (p - q).y ^ 2 ≤ 0 := Real.sqrt_eq_zero'.mp h
  have hx : (p - q).x = 0 := by nlinarith [sq_nonneg (p - q).x, sq_nonneg (p - q).y]
  have hy : (p - q).y = 0 := by nlinarith [sq_nonneg (p - q).x, sq_nonneg (p - q).y]
  refine ptExt ?_ ?_
  · have := hx; simp only [Pt.sub_x] at this; linarith
  · have := hy; simp only [Pt.sub_y] at this; linarith

theorem sub_self_pt (a : Pt ℝ) : a - a = (⟨0, 0⟩ : Pt ℝ) := by
  refine ptExt ?_ ?_ <;> simp

/-- A segment (tolerantly) includes its own first endpoint. -/
theorem segIncludes_self_p1 (a b : Pt ℝ) : segIncludes a b a := by
  refine ⟨Or.inl (ptEq_refl a), Or.inl ?_⟩
  have hd : dot (b - a) (a - a) = 0 := by
    rw [sub_self_pt]
    simp [dot]
  rw [hd, zero_div]
  exact equal_refl 0

/-- A segment (tolerantly) includes its own second endpoint. -/
theorem segIncludes_self_p2 (a b : Pt ℝ) : segIncludes a b b := by
  refine ⟨Or.inr (Or.inl (ptEq_refl b)), Or.inr (Or.inl ?_)⟩
  have hd : dot (b - a) (b - a) = (b - a).x ^ 2 + (b - a).y ^ 2 := by
    rw [dot]; ring
  rw [hd, absPt, Real.div_sqrt]
  exact equal_refl _

theorem distToPointSeg_nonneg (a b q : Pt ℝ) : 0 ≤ distToPointSeg a b q := by
  rw [distToPointSeg]
  by_cases h : segIncludes a b (projection a b q)
  · rw [if_pos h]; exact absPt_nonneg _
  · rw [if_neg h]; exact le_min (absPt_nonneg _) (absPt_nonneg _)

/-- When a point's distance to a segment is exactly zero, the segment's
tolerant inclusion test accepts the point. -/
theorem distToPointSeg_eq_zero (a b q : Pt ℝ) (h : distToPointSeg a b q = 0) :
    segIncludes a b q := by
  rw [distToPointSeg] at h
  by_cases hinc : segIncludes a b (projection a b q)
  · rw [if_pos hinc] at h
    have hq : q = projection a b q := absPt_sub_eq_zero h
    rw [← hq] at hinc
    exact hinc
  · rw [if_neg hinc] at h
    have h0 : absPt (a - q) = 0 ∨ absPt (b - q) = 0 := by
      rcases le_total (absPt (a - q)) (absPt (b - q)) with hle | hle
      · left; rw [min_eq_left hle] at h; exact h
      · right; rw [min_eq_right hle] at h; exact h
    rcases h0 with h0 | h0
    · have : a = q := absPt_sub_eq_zero h0
      rw [← this]
      exact segIncludes_self_p1 a b
    · have : b = q := absPt_sub_eq_zero h0
      rw [← this]
      exact segIncludes_self_p2 a b

/--
C7: `a.distance_to_segment(b)` is `0` exactly when `a.is_crossing(b)`; when
the segments do not cross, the distance equals the minimum of the four
endpoint-to-opposite-segment distances and is strictly positive.
-/
theorem segment_distance_zero_iff_crossing (a b c d : Pt ℝ) :
    (distToSeg a b c d = 0 ↔ segCrossSegPts a b c d) ∧
      (¬ segCrossSegPts a b c d →
        distToSeg a b c d =
          min (min (distToPointSeg a b c) (distToPointSeg a b d))
              (min (distToPointSeg c d a) (distToPointSeg c d b)) ∧
          0 < distToSeg a b c d) := by
  have hkey : ∀ hcr : ¬ segCrossSegPts a b c d, 0 < distToSeg a b c d := by
    intro hcr
    rw [distToSeg, if_neg hcr]
    have h1 : 0 ≤ distToPointSeg a b c := distToPointSeg_nonneg a b c
    have h2 : 0 ≤ distToPointSeg a b d := distToPointSeg_nonneg a b d
    have h3 : 0 ≤ distToPointSeg c d a := distToPointSeg_nonneg c d a
    have h4 : 0 ≤ distToPointSeg c d b := distToPointSeg_nonneg c d b
    have n1 : distToPointSeg a b c ≠ 0 :=
      fun h => hcr (Or.inl (distToPointSeg_eq_zero a b c h))
    have n2 : distToPointSeg a b d ≠ 0 :=
      fun h => hcr (Or.inr (Or.inl (distToPointSeg_eq_zero a b d h)))
    have n3 : distToPointSeg c d a ≠ 0 :=
      fun h => hcr (Or.inr (Or.inr (Or.inl (distToPointSeg_eq_zero c d a h))))
    have n4 : distToPointSeg c d b ≠ 0 :=
      fun h => hcr (Or.inr (Or.inr (Or.inr (Or.inl
        (distToPointSeg_eq_zero c d b h)))))
    have p1 : 0 < distToPointSeg a b c := lt_of_le_of_ne h1 (Ne.symm n1)
    have p2 : 0 < distToPointSeg a b d := lt_of_le_of_ne h2 (Ne.symm n2)
    have p3 : 0 < distToPointSeg c d a := lt_of_le_of_ne h3 (Ne.symm n3)
    have p4 : 0 < distToPointSeg c d b := lt_of_le_of_ne h4 (Ne.symm n4)
    exact lt_min (lt_min p1 p2) (lt_min p3 p4)
  constructor
  · constructor
    · intro h
      by_contra hcr
      have := hkey hcr
      rw [h] at this
      exact lt_irrefl 0 this
    · intro h
      rw [distToSeg, if_pos h]
  · intro hcr
    exact ⟨by rw [distToSeg, if_neg hcr], hkey hcr⟩

/-! ### `math.atan2` and the winding-number containment test -/

/-- `math.atan2(y, x)` on exact reals. -/
def myatan2 (y x : ℝ) : ℝ :=
  if 0 < x then Real.arctan (y / x)
  else if x < 0 then
    (if 0 ≤ y then Real.arctan (y / x) + Real.pi
     else Real.arctan (y / x) - Real.pi)
  else
    (if 0 < y then Real.pi / 2 else if y < 0 then -(Real.pi / 2) else 0)

theorem myatan2_zero_of_nonneg {x : ℝ} (hx : 0 ≤ x) : myatan2 0 x = 0 := by
  rcases lt_or_eq_of_le hx with h | h
  · rw [myatan2, if_pos h]
    simp [Real.arctan_zero]
  · rw [myatan2, if_neg (by rw [← h]; exact lt_irrefl 0),
      if_neg (by rw [← h]; exact lt_irrefl 0)]
    simp

theorem abs_myatan2_neg (y x : ℝ) : |myatan2 (-y) x| = |myatan2 y x| := by
  unfold myatan2
  rcases lt_trichotomy x 0 with hx | hx | hx
  · have hnx : ¬ (0 : ℝ) < x := by linarith
    rw [if_neg hnx, if_neg hnx, if_pos hx, if_pos hx]
    rcases lt_trichotomy y 0 with hy | hy | hy
    · rw [if_pos (by linarith : (0 : ℝ) ≤ -y),
        if_neg (by linarith : ¬ (0 : ℝ) ≤ y), neg_div, Real.arctan_neg,
        show -Real.arctan (y / x) + Real.pi =
          -(Real.arctan (y / x) - Real.pi) by ring, abs_neg]
    · subst hy; norm_num
    · rw [if_neg (by linarith : ¬ (0 : ℝ) ≤ -y),
        if_pos (by linarith : (0 : ℝ) ≤ y), neg_div, Real.arctan_neg,
        show -Real.arctan (y / x) - Real.pi =
          -(Real.arctan (y / x) + Real.pi) by ring, abs_neg]
  · subst hx
    rw [if_neg (lt_irrefl (0 : ℝ)), if_neg (lt_irrefl (0 : ℝ)),
      if_neg (lt_irrefl (0 : ℝ)), if_neg (lt_irrefl (0 : ℝ))]
    rcases lt_trichotomy y 0 with hy | hy | hy
    · rw [if_pos (by linarith : (0 : ℝ) < -y),
        if_neg (by linarith : ¬ (0 : ℝ) < y), if_pos hy, abs_neg]
    · subst hy; norm_num
    · rw [if_neg (by linarith : ¬ (0 : ℝ) < -y),
        if_pos (by linarith : -y < 0), if_pos hy, abs_neg]
  · rw [if_pos hx, if_pos hx, neg_div, Real.arctan_neg, abs_neg]

/-- One edge's contribution to the winding angle of `p`:
`atan2((a-p) × (b-p), (a-p) · (b-p))`. -/
def windTerm (p : Pt ℝ) (e : Pt ℝ × Pt ℝ) : ℝ :=
  myatan2 (cross (e.1 - p) (e.2 - p)) (dot (e.1 - p) (e.2 - p))

/-- The loop of `Polygon.side_of_point` over the (cyclic) edge list, carrying
the running angle `θ`.  Constructing `Segment(a, b)` with tolerance-equal
endpoints fails the constructor's assertion, modelled as `none`. -/
def sideLoop (p : Pt ℝ) : List (Pt ℝ × Pt ℝ) → ℝ → Option ℤ
  | [], θ => some (if -Real.pi < θ ∧ θ < Real.pi then -1 else 1)
  | e :: es, θ =>
    if ptEq e.1 e.2 then none
    else if segIncludes e.1 e.2 p then some 0
    else sideLoop p es (θ + windTerm p e)

/-- The cyclic edge list `(points[i], points[(i+1) % n])`. -/
def cyclicPairs (l : List (Pt ℝ)) : List (Pt ℝ × Pt ℝ) :=
  l.zip (l.drop 1 ++ l.take 1)

/-- `Polygon.side_of_point`. -/
def sideOfPoint (pts : List (Pt ℝ)) (p : Pt ℝ) : Option ℤ :=
  sideLoop p (cyclicPairs pts) 0

/-- The accumulated winding angle of `p` around the polygon. -/
def windingSum (pts : List (Pt ℝ)) (p : Pt ℝ) : ℝ :=
  ((cyclicPairs pts).map (windTerm p)).sum

/-- Whenever some edge's (tolerant) segment test accepts `p`, the loop
short-circuits to `0` (no degenerate edge having aborted it earlier). -/
theorem sideLoop_zero_of_mem (p : Pt ℝ) (es : List (Pt ℝ × Pt ℝ)) (θ : ℝ)
    (hnd : ∀ e ∈ es, ¬ ptEq e.1 e.2)
    (hmem : ∃ e ∈ es, segIncludes e.1 e.2 p) :
    sideLoop p es θ = some 0 := by
  induction es generalizing θ with
  | nil => simp at hmem
  | cons e es ih =>
    rw [sideLoop, if_neg (hnd e (by simp))]
    by_cases hseg : segIncludes e.1 e.2 p
    · rw [if_pos hseg]
    · rw [if_neg hseg]
      rcases hmem with ⟨f, hf, hfs⟩
      rcases List.mem_cons.mp hf with rfl | hf'
      · exact absurd hfs hseg
      · exact ih (θ + windTerm p e) (fun g hg => hnd g (by simp [hg]))
          ⟨f, hf', hfs⟩

/-- When no edge accepts `p`, the loop runs to completion and buckets the
accumulated angle against `(-π, π)`. -/
theorem sideLoop_total (p : Pt ℝ) (es : List (Pt ℝ × Pt ℝ)) (θ : ℝ)
    (hnd : ∀ e ∈ es, ¬ ptEq e.1 e.2)
    (hni : ∀ e ∈ es, ¬ segIncludes e.1 e.2 p) :
    sideLoop p es θ =
      some (if -Real.pi < θ + (es.map (windTerm p)).sum ∧
          θ + (es.map (windTerm p)).sum < Real.pi then -1 else 1) := by
  induction es generalizing θ with
  | nil => rw [sideLoop]; simp
  | cons e es ih =>
    rw [sideLoop, if_neg (hnd e (by simp)), if_neg (hni e (by simp))]
    rw [ih (θ + windTerm p e) (fun g hg => hnd g (by simp [hg]))
      (fun g hg => hni g (by simp [hg]))]
    have harith : θ + windTerm p e + (es.map (windTerm p)).sum =
        θ + ((e :: es).map (windTerm p)).sum := by
      rw [List.map_cons, List.sum_cons]
      ring
    rw [harith]

/--
C6 (amended): for a polygon with at least three stored vertices *whose
cyclic edges are all non-degenerate* (no cyclically adjacent stored pair is
tolerance-equal — the constructor does not guarantee this for the
wrap-around pair), `side_of_point(p)` returns `0` as soon as some edge
segment contains `p` (short-circuiting before the angle sum completes);
otherwise it accumulates the winding angle
`θ = Σ atan2((a-p) × (b-p), (a-p) · (b-p))` over all edges and returns `-1`
(outside, winding near `0`, i.e. `θ ∈ (-π, π)`) or `1` (inside, winding of
magnitude near `2π`, i.e. `θ ∉ (-π, π)`).  Without the non-degeneracy
restriction the classification fails: see the counterexample below, where
the loop dies in the `Segment` constructor instead.
-/
theorem side_of_point_classification (pts : List (Pt ℝ)) (p : Pt ℝ)
    (hn : 3 ≤ pts.length)
    (hnd : ∀ e ∈ cyclicPairs pts, ¬ ptEq e.1 e.2) :
    ((∃ e ∈ cyclicPairs pts, segIncludes e.1 e.2 p) →
        sideOfPoint pts p = some 0) ∧
      ((∀ e ∈ cyclicPairs pts, ¬ segIncludes e.1 e.2 p) →
        ((-Real.pi < windingSum pts p ∧ windingSum pts p < Real.pi) →
            sideOfPoint pts p = some (-1)) ∧
        (¬ (-Real.pi < windingSum pts p ∧ windingSum pts p < Real.pi) →
            sideOfPoint pts p = some 1)) := by
  constructor
  · intro hmem
    exact sideLoop_zero_of_mem p (cyclicPairs pts) 0 hnd hmem
  · intro hni
    have h := sideLoop_total p (cyclicPairs pts) 0 hnd hni
    rw [zero_add] at h
    rw [sideOfPoint, h]
    constructor
    · intro hbucket
      rw [if_pos (by rw [windingSum] at hbucket; exact hbucket)]
    · intro hbucket
      rw [if_neg (by rw [windingSum] at hbucket; exact hbucket)]

/-- Witness for C6 at a concrete triangle and a point on its first edge. -/
theorem side_of_point_classification_witness :
    3 ≤ ([⟨0, 0⟩, ⟨2, 0⟩, ⟨0, 2⟩] : List (Pt ℝ)).length ∧
      (∀ e ∈ cyclicPairs ([⟨0, 0⟩, ⟨2, 0⟩, ⟨0, 2⟩] : List (Pt ℝ)),
        ¬ ptEq e.1 e.2) ∧
      (((∃ e ∈ cyclicPairs ([⟨0, 0⟩, ⟨2, 0⟩, ⟨0, 2⟩] : List (Pt ℝ)),
          segIncludes e.1 e.2 ⟨1, 0⟩) →
        sideOfPoint ([⟨0, 0⟩, ⟨2, 0⟩, ⟨0, 2⟩] : List (Pt ℝ)) ⟨1, 0⟩ = some 0) ∧
      ((∀ e ∈ cyclicPairs ([⟨0, 0⟩, ⟨2, 0⟩, ⟨0, 2⟩] : List (Pt ℝ)),
          ¬ segIncludes e.1 e.2 ⟨1, 0⟩) →
        ((-Real.pi < windingSum [⟨0, 0⟩, ⟨2, 0⟩, ⟨0, 2⟩] ⟨1, 0⟩ ∧
            windingSum [⟨0, 0⟩, ⟨2, 0⟩, ⟨0, 2⟩] ⟨1, 0⟩ < Real.pi) →
            sideOfPoint ([⟨0, 0⟩, ⟨2, 0⟩, ⟨0, 2⟩] : List (Pt ℝ)) ⟨1, 0⟩ =
              some (-1)) ∧
        (¬ (-Real.pi < windingSum [⟨0, 0⟩, ⟨2, 0⟩, ⟨0, 2⟩] ⟨1, 0⟩ ∧
            windingSum [⟨0, 0⟩, ⟨2, 0⟩, ⟨0, 2⟩] ⟨1, 0⟩ < Real.pi) →
            sideOfPoint ([⟨0, 0⟩, ⟨2, 0⟩, ⟨0, 2⟩] : List (Pt ℝ)) ⟨1, 0⟩ =
              some 1))) := by
  have hpairs : cyclicPairs ([⟨0, 0⟩, ⟨2, 0⟩, ⟨0, 2⟩] : List (Pt ℝ)) =
      [(⟨0, 0⟩, ⟨2, 0⟩), (⟨2, 0⟩, ⟨0, 2⟩), (⟨0, 2⟩, ⟨0, 0⟩)] := rfl
  have hnd : ∀ e ∈ cyclicPairs ([⟨0, 0⟩, ⟨2, 0⟩, ⟨0, 2⟩] : List (Pt ℝ)),
      ¬ ptEq e.1 e.2 := by
    rw [hpairs]
    intro e he
    simp only [List.mem_cons, List.not_mem_nil, or_false] at he
    rcases he with rfl | rfl | rfl <;> norm_num [ptEq, equal, kabs, EPS]
  exact ⟨by norm_num, hnd,
    side_of_point_classification [⟨0, 0⟩, ⟨2, 0⟩, ⟨0, 2⟩] ⟨1, 0⟩
      (by norm_num) hnd⟩

theorem ccw_ne_zero {a b : Pt ℝ} (h : ¬ equal (cross a b) 0) :
    ccw a b ≠ 0 := by
  rw [ccw, if_neg h]
  by_cases hlt : cross a b < 0
  · rw [if_pos hlt]; decide
  · rw [if_neg hlt]; decide

/--
Counterexample to C6 as stated: the input `[(0,0),(1,0),(0,1e-9)]` is a
simple CCW triangle; the constructor stores all three vertices (adjacent
pairs differ by more than the tolerance), but the wrap-around pair
`((0,1e-9),(0,0))` is tolerance-equal.  For the strictly outside point
`(5,5)` the loop passes the first two edges and then builds
`Segment((0,1e-9),(0,0))`, whose constructor assertion fails (`none`) —
the code raises instead of returning `-1`.
-/
theorem side_of_point_degenerate_edge_counterexample :
    polyNorm ([⟨0, 0⟩, ⟨1, 0⟩, ⟨0, 1 / 1000000000⟩] : List (Pt ℝ)) =
        [⟨0, 0⟩, ⟨1, 0⟩, ⟨0, 1 / 1000000000⟩] ∧
      sideOfPoint ([⟨0, 0⟩, ⟨1, 0⟩, ⟨0, 1 / 1000000000⟩] : List (Pt ℝ))
        ⟨5, 5⟩ = none := by
  constructor
  · norm_num [polyNorm, polyNormRev, ptEq, equal, kabs, EPS, List.headI]
  · have hpairs : cyclicPairs
        ([⟨0, 0⟩, ⟨1, 0⟩, ⟨0, 1 / 1000000000⟩] : List (Pt ℝ)) =
        [(⟨0, 0⟩, ⟨1, 0⟩), (⟨1, 0⟩, ⟨0, 1 / 1000000000⟩),
         (⟨0, 1 / 1000000000⟩, ⟨0, 0⟩)] := rfl
    have hnd1 : ¬ ptEq (⟨0, 0⟩ : Pt ℝ) ⟨1, 0⟩ := by
      norm_num [ptEq, equal, kabs, EPS]
    have hseg1 : ¬ segIncludes ⟨0, 0⟩ ⟨1, 0⟩ (⟨5, 5⟩ : Pt ℝ) := by
      rintro ⟨h | h | h, -⟩
      · norm_num [ptEq, equal, kabs, EPS] at h
      · norm_num [ptEq, equal, kabs, EPS] at h
      · exact ccw_ne_zero (by norm_num [cross, equal, kabs, EPS]) h
    have hnd2 : ¬ ptEq (⟨1, 0⟩ : Pt ℝ) ⟨0, 1 / 1000000000⟩ := by
      norm_num [ptEq, equal, kabs, EPS]
    have hseg2 :
        ¬ segIncludes ⟨1, 0⟩ ⟨0, 1 / 1000000000⟩ (⟨5, 5⟩ : Pt ℝ) := by
      rintro ⟨h | h | h, -⟩
      · norm_num [ptEq, equal, kabs, EPS] at h
      · norm_num [ptEq, equal, kabs, EPS] at h
      · exact ccw_ne_zero (by norm_num [cross, equal, kabs, EPS]) h
    have hdeg : ptEq (⟨0, 1 / 1000000000⟩ : Pt ℝ) ⟨0, 0⟩ := by
      norm_num [ptEq, equal, kabs, EPS]
    rw [sideOfPoint, hpairs, sideLoop, if_neg hnd1, if_neg hseg1,
      sideLoop, if_neg hnd2, if_neg hseg2, sideLoop, if_pos hdeg]

theorem polyNormRev_all_eq (a : Pt ℝ) (rest : List (Pt ℝ))
    (h : ∀ q ∈ rest, ptEq a q) : polyNormRev [a] rest = [a] := by
  induction rest with
  | nil => rw [polyNormRev]
  | cons q qs ih =>
    rw [polyNormRev, if_pos (by simpa [List.headI] using h q (by simp))]
    exact ih fun r hr => h r (by simp [hr])

/--
C10: whenever every input point is tolerance-equal to the first, the
constructor stores exactly one vertex, and `side_of_point` then fails the
`Segment` constructor's assertion (it builds `Segment(a, a)`) for every
query point instead of returning `1`, `0`, or `-1`.
-/
theorem single_vertex_side_of_point_crashes
    (a : Pt ℝ) (rest : List (Pt ℝ)) (p : Pt ℝ) (h : ∀ q ∈ rest, ptEq a q) :
    polyNorm (a :: rest) = [a] ∧ sideOfPoint (polyNorm (a :: rest)) p = none := by
  have hnorm : polyNorm (a :: rest) = [a] := by
    rw [polyNorm, polyNormRev_all_eq a rest h]
    rfl
  refine ⟨hnorm, ?_⟩
  rw [hnorm]
  have hpairs : cyclicPairs [a] = [(a, a)] := rfl
  rw [sideOfPoint, hpairs, sideLoop, if_pos (ptEq_refl a)]

/-- `distance_to_point` with Python's dynamic dispatch: a `Line` argument
uses `Line.distance_to_point`, while a `Segment` argument uses the bounded
`Segment.distance_to_point` override. -/
def distToPointLS : LS → Pt ℝ → ℝ
  | .line a b, q => distLinePt a b q
  | .seg a b, q => distToPointSeg a b q

/-- `Circle.is_touching_line` (`other.distance_to_point(self.center)`
dispatches on the argument's runtime type). -/
def isTouchingLine (c : CircleK ℝ) (o : LS) : Prop :=
  equal (distToPointLS o c.center) c.radius

/-- `Circle.is_crossing_line`. -/
def isCrossingLine (c : CircleK ℝ) (o : LS) : Prop :=
  isTouchingLine c o ∨ distToPointLS o c.center < c.radius

/-- `Circle.crossing_points_with_line`: the guard uses the argument's own
distance (bounded for a `Segment`), but the returned points are computed on
the supporting infinite line through `o.p1` and `o.p2`. -/
def crossingPointsWithLine (c : CircleK ℝ) (o : LS) : List (Pt ℝ) :=
  if ¬ isTouchingLine c o ∧ ¬ isCrossingLine c o then []
  else if isTouchingLine c o then [projection o.p1 o.p2 c.center]
  else
    [projection o.p1 o.p2 c.center - (unitVector (o.p2 - o.p1)).mul
        (Real.sqrt (c.radius ^ 2 -
          absPt (projection o.p1 o.p2 c.center - c.center) ^ 2)),
     projection o.p1 o.p2 c.center + (unitVector (o.p2 - o.p1)).mul
        (Real.sqrt (c.radius ^ 2 -
          absPt (projection o.p1 o.p2 c.center - c.center) ^ 2))]

theorem sqrt_eval {a b : ℝ} (hb : 0 ≤ b) (h : a = b ^ 2) :
    Real.sqrt a = b := by
  rw [h, Real.sqrt_sq hb]

theorem circle_line_proj_eval :
    projection ⟨2, 0⟩ ⟨3, 0⟩ ⟨0, 0⟩ = (⟨0, 0⟩ : Pt ℝ) := by
  have habs : absPt ((⟨3, 0⟩ : Pt ℝ) - ⟨2, 0⟩) = 1 := by
    norm_num [absPt, Real.sqrt_one]
  rw [projection, habs]
  refine ptExt ?_ ?_ <;> norm_num [dot, Pt.mul]

/-- The bounded segment distance from the origin to the segment
`(2,0)–(3,0)` is `2` (the projection `(0,0)` falls outside the segment, so
the nearer endpoint decides). -/
theorem seg_dist_23_eval :
    distToPointSeg ⟨2, 0⟩ ⟨3, 0⟩ (⟨0, 0⟩ : Pt ℝ) = 2 := by
  have habs : absPt ((⟨3, 0⟩ : Pt ℝ) - ⟨2, 0⟩) = 1 := by
    norm_num [absPt, Real.sqrt_one]
  have hninc :
      ¬ segIncludes ⟨2, 0⟩ ⟨3, 0⟩ (projection ⟨2, 0⟩ ⟨3, 0⟩ ⟨0, 0⟩) := by
    rw [circle_line_proj_eval]
    intro hseg
    rcases hseg with ⟨-, hb⟩
    rw [habs] at hb
    have hrefv : dot ((⟨3, 0⟩ : Pt ℝ) - ⟨2, 0⟩) ((⟨0, 0⟩ : Pt ℝ) - ⟨2, 0⟩) =
        -2 := by
      norm_num [dot]
    rw [hrefv] at hb
    rcases hb with h | h | h
    · rw [equal_iff_abs, EPS] at h; norm_num at h
    · rw [equal_iff_abs, EPS] at h; norm_num at h
    · norm_num at h
  rw [distToPointSeg, if_neg hninc]
  have h2 : absPt ((⟨2, 0⟩ : Pt ℝ) - ⟨0, 0⟩) = 2 := by
    rw [absPt]; exact sqrt_eval (by norm_num) (by norm_num)
  have h3 : absPt ((⟨3, 0⟩ : Pt ℝ) - ⟨0, 0⟩) = 3 := by
    rw [absPt]; exact sqrt_eval (by norm_num) (by norm_num)
  rw [h2, h3]
  norm_num [min_def]

/--
Counterexample to C9 as stated: `crossing_points_with_line` does *not*
treat a `Segment` argument as its supporting infinite line.  The guard calls
`other.distance_to_point(center)`, which for a `Segment` is the bounded
override: for the unit circle at the origin and the segment `(2,0)–(3,0)`
the segment distance is `2 > 1`, so the code returns `[]`, while the same
operand passed as a `Line` yields the supporting-line intersections
`(-1,0)` and `(1,0)`.
-/
theorem circle_segment_guard_counterexample :
    crossingPointsWithLine ⟨⟨0, 0⟩, 1⟩ (LS.seg ⟨2, 0⟩ ⟨3, 0⟩) = [] ∧
      crossingPointsWithLine ⟨⟨0, 0⟩, 1⟩ (LS.line ⟨2, 0⟩ ⟨3, 0⟩) =
        [⟨-1, 0⟩, ⟨1, 0⟩] := by
  constructor
  · have hd : distToPointLS (LS.seg ⟨2, 0⟩ ⟨3, 0⟩) (⟨0, 0⟩ : Pt ℝ) = 2 :=
      seg_dist_23_eval
    have hT : ¬ isTouchingLine ⟨⟨0, 0⟩, 1⟩ (LS.seg ⟨2, 0⟩ ⟨3, 0⟩) := by
      rw [isTouchingLine]
      show ¬ equal (distToPointLS (LS.seg ⟨2, 0⟩ ⟨3, 0⟩) ⟨0, 0⟩) 1
      rw [hd, equal_iff_abs, EPS]
      norm_num
    have hC : ¬ isCrossingLine ⟨⟨0, 0⟩, 1⟩ (LS.seg ⟨2, 0⟩ ⟨3, 0⟩) := by
      rintro (h | h)
      · exact hT h
      · have h2 : distToPointLS (LS.seg ⟨2, 0⟩ ⟨3, 0⟩) (⟨0, 0⟩ : Pt ℝ) <
            (1 : ℝ) := h
        rw [hd] at h2
        norm_num at h2
    rw [crossingPointsWithLine, if_pos ⟨hT, hC⟩]
  · have hd0 : distToPointLS (LS.line ⟨2, 0⟩ ⟨3, 0⟩) (⟨0, 0⟩ : Pt ℝ) = 0 := by
      show distLinePt ⟨2, 0⟩ ⟨3, 0⟩ ⟨0, 0⟩ = 0
      rw [distLinePt, circle_line_proj_eval]
      norm_num [absPt, Real.sqrt_zero]
    have hT : ¬ isTouchingLine ⟨⟨0, 0⟩, 1⟩ (LS.line ⟨2, 0⟩ ⟨3, 0⟩) := by
      rw [isTouchingLine]
      show ¬ equal (distToPointLS (LS.line ⟨2, 0⟩ ⟨3, 0⟩) ⟨0, 0⟩) 1
      rw [hd0, equal_iff_abs, EPS]
      norm_num
    have hC : isCrossingLine ⟨⟨0, 0⟩, 1⟩ (LS.line ⟨2, 0⟩ ⟨3, 0⟩) := by
      rw [isCrossingLine]
      right
      show distToPointLS (LS.line ⟨2, 0⟩ ⟨3, 0⟩) ⟨0, 0⟩ < 1
      rw [hd0]
      norm_num
    have hunit : unitVector ((⟨3, 0⟩ : Pt ℝ) - ⟨2, 0⟩) = ⟨1, 0⟩ := by
      have habs : absPt ((⟨3, 0⟩ : Pt ℝ) - ⟨2, 0⟩) = 1 := by
        norm_num [absPt, Real.sqrt_one]
      rw [unitVector, habs, if_neg (by rw [equal_iff_abs, EPS]; norm_num)]
      refine ptExt ?_ ?_ <;> norm_num [Pt.div]
    rw [crossingPointsWithLine, if_neg (fun h => h.2 hC), if_neg hT]
    simp only [LS.p1, LS.p2]
    rw [circle_line_proj_eval, hunit]
    have hd : Real.sqrt ((1 : ℝ) ^ 2 -
        absPt ((⟨0, 0⟩ : Pt ℝ) - ⟨0, 0⟩) ^ 2) = 1 := by
      norm_num [absPt, Real.sqrt_zero, Real.sqrt_one]
    rw [hd]
    refine List.ext_getElem (by simp) ?_
    intro i hi _
    match i, hi with
    | 0, _ => refine ptExt ?_ ?_ <;> norm_num [Pt.mul]
    | 1, _ => refine ptExt ?_ ?_ <;> norm_num [Pt.mul]

theorem proj_03_eval :
    projection ⟨0, 3⟩ ⟨1, 3⟩ ⟨0, 0⟩ = (⟨0, 3⟩ : Pt ℝ) := by
  have habs : absPt ((⟨1, 3⟩ : Pt ℝ) - ⟨0, 3⟩) = 1 := by
    norm_num [absPt, Real.sqrt_one]
  rw [projection, habs]
  refine ptExt ?_ ?_ <;> norm_num [dot, Pt.mul]

/--
C9 (amended): once the (bounded, for a `Segment`) distance guard passes,
the returned points are computed on the supporting infinite line, so for
some circle and segment the returned list contains a point that does not
lie on the segment itself.  For the circle of radius `5` at the origin and
the segment `(0,3)–(1,3)` (segment distance `3 < 5`) the code returns the
supporting-line intersections `(-4,3)` and `(4,3)`, and `(4,3)` fails
`Segment.is_including_point` — callers such as the polygon–circle area
algorithm must filter.
-/
theorem circle_line_unbounded_points :
    crossingPointsWithLine ⟨⟨0, 0⟩, 5⟩ (LS.seg ⟨0, 3⟩ ⟨1, 3⟩) =
        [⟨-4, 3⟩, ⟨4, 3⟩] ∧
      (⟨4, 3⟩ : Pt ℝ) ∈
        crossingPointsWithLine ⟨⟨0, 0⟩, 5⟩ (LS.seg ⟨0, 3⟩ ⟨1, 3⟩) ∧
      ¬ segIncludes ⟨0, 3⟩ ⟨1, 3⟩ ⟨4, 3⟩ := by
  have habs1 : absPt ((⟨1, 3⟩ : Pt ℝ) - ⟨0, 3⟩) = 1 := by
    norm_num [absPt, Real.sqrt_one]
  have habs03 : absPt ((⟨0, 0⟩ : Pt ℝ) - ⟨0, 3⟩) = 3 := by
    rw [absPt]; exact sqrt_eval (by norm_num) (by norm_num)
  have habs30 : absPt ((⟨0, 3⟩ : Pt ℝ) - ⟨0, 0⟩) = 3 := by
    rw [absPt]; exact sqrt_eval (by norm_num) (by norm_num)
  have hdseg : distToPointSeg ⟨0, 3⟩ ⟨1, 3⟩ (⟨0, 0⟩ : Pt ℝ) = 3 := by
    rw [distToPointSeg, proj_03_eval, if_pos (segIncludes_self_p1 _ _), habs03]
  have hd : distToPointLS (LS.seg ⟨0, 3⟩ ⟨1, 3⟩) (⟨0, 0⟩ : Pt ℝ) = 3 := hdseg
  have hT : ¬ isTouchingLine ⟨⟨0, 0⟩, 5⟩ (LS.seg ⟨0, 3⟩ ⟨1, 3⟩) := by
    rw [isTouchingLine]
    show ¬ equal (distToPointLS (LS.seg ⟨0, 3⟩ ⟨1, 3⟩) ⟨0, 0⟩) 5
    rw [hd, equal_iff_abs, EPS]
    norm_num
  have hC : isCrossingLine ⟨⟨0, 0⟩, 5⟩ (LS.seg ⟨0, 3⟩ ⟨1, 3⟩) := by
    rw [isCrossingLine]
    right
    show distToPointLS (LS.seg ⟨0, 3⟩ ⟨1, 3⟩) ⟨0, 0⟩ < 5
    rw [hd]
    norm_num
  have hunit : unitVector ((⟨1, 3⟩ : Pt ℝ) - ⟨0, 3⟩) = ⟨1, 0⟩ := by
    rw [unitVector, habs1, if_neg (by rw [equal_iff_abs, EPS]; norm_num)]
    refine ptExt ?_ ?_ <;> norm_num [Pt.div]
  have hsq16 : Real.sqrt (16 : ℝ) = 4 :=
    sqrt_eval (by norm_num) (by norm_num)
  have hlist : crossingPointsWithLine ⟨⟨0, 0⟩, 5⟩ (LS.seg ⟨0, 3⟩ ⟨1, 3⟩) =
      [⟨-4, 3⟩, ⟨4, 3⟩] := by
    rw [crossingPointsWithLine, if_neg (fun h => h.2 hC), if_neg hT]
    simp only [LS.p1, LS.p2]
    rw [proj_03_eval, habs30, hunit]
    refine List.ext_getElem (by simp) ?_
    intro i hi _
    match i, hi with
    | 0, _ => refine ptExt ?_ ?_ <;> norm_num [Pt.mul, hsq16]
    | 1, _ => refine ptExt ?_ ?_ <;> norm_num [Pt.mul, hsq16]
  refine ⟨hlist, ?_, ?_⟩
  · rw [hlist]; simp
  · intro hseg
    rcases hseg with ⟨-, hb⟩
    rw [habs1] at hb
    have hrefv : dot ((⟨1, 3⟩ : Pt ℝ) - ⟨0, 3⟩) ((⟨4, 3⟩ : Pt ℝ) - ⟨0, 3⟩) =
        4 := by
      norm_num [dot]
    rw [hrefv] at hb
    rcases hb with h | h | h
    · rw [equal_iff_abs, EPS] at h; norm_num at h
    · rw [equal_iff_abs, EPS] at h; norm_num at h
    · norm_num at h

/-! ### Circle–circle intersection area (`Circle.area_common_with_circle`) -/

/-- `Circle.area`. -/
def areaC (c : CircleK ℝ) : ℝ := Real.pi * c.radius ^ 2

/-- `Circle.side_of_touching_circle`: `1` internally tangent, `-1` externally
tangent, `0` otherwise. -/
def sideTouching (c1 c2 : CircleK ℝ) : ℤ :=
  if equal (absPt (c1.center - c2.center)) (kabs (c1.radius - c2.radius)) then 1
  else if equal (absPt (c1.center - c2.center)) (c1.radius + c2.radius) then -1
  else 0

/-- `Circle.side_of_aparting_circle`: `0` when tangent (`if touching:` tests
the integer for non-zero truthiness), `1` nested, `-1` disjoint, `0` else. -/
def sideAparting (c1 c2 : CircleK ℝ) : ℤ :=
  if sideTouching c1 c2 ≠ 0 then 0
  else if absPt (c1.center - c2.center) < kabs (c1.radius - c2.radius) then 1
  else if c1.radius + c2.radius < absPt (c1.center - c2.center) then -1
  else 0

/-- `dist` in `Circle.crossing_points_with_circle`. -/
def ccDist (c1 c2 : CircleK ℝ) : ℝ := absPt (c1.center - c2.center)

/-- `cosine` in `Circle.crossing_points_with_circle` (law of cosines for the
foot of the perpendicular on the center line). -/
def ccCos (c1 c2 : CircleK ℝ) : ℝ :=
  (c1.radius ^ 2 - c2.radius ^ 2 + ccDist c1 c2 ^ 2) / (2 * ccDist c1 c2)

/-- `h` in `Circle.crossing_points_with_circle`, the half-chord length.
(The Python `** 0.5` would yield a complex number on a negative base; the
two-crossing branch only reaches it with a non-negative base.) -/
def ccH (c1 c2 : CircleK ℝ) : ℝ := Real.sqrt (c1.radius ^ 2 - ccCos c1 c2 ^ 2)

/-- `unit` in `Circle.crossing_points_with_circle`. -/
def ccUnit (c1 c2 : CircleK ℝ) : Pt ℝ := unitVector (c2.center - c1.center)

/-- `p` in `Circle.crossing_points_with_circle`. -/
def chordP (c1 c2 : CircleK ℝ) : Pt ℝ :=
  c1.center + (ccUnit c1 c2).mul (ccCos c1 c2)

/-- `unit.rotate(pi / 2) * h` in `Circle.crossing_points_with_circle`. -/
def chordW (c1 c2 : CircleK ℝ) : Pt ℝ :=
  (rotatePt (ccUnit c1 c2) (Real.pi / 2) ⟨0, 0⟩).mul (ccH c1 c2)

/-- `Circle.crossing_points_with_circle`. -/
def crossingPointsCC (c1 c2 : CircleK ℝ) : List (Pt ℝ) :=
  if sideTouching c1 c2 = 1 then
    if c2.radius < c1.radius then
      [c1.center + (unitVector (c2.center - c1.center)).mul c1.radius]
    else
      [c2.center - (unitVector (c2.center - c1.center)).mul c2.radius]
  else if sideTouching c1 c2 = -1 then
    [c1.center + (unitVector (c2.center - c1.center)).mul c1.radius]
  else if sideAparting c1 c2 = 0 then
    [chordP c1 c2 + chordW c1 c2, chordP c1 c2 - chordW c1 c2]
  else []

/-- The two-crossing-point branch of `Circle.area_common_with_circle`:
`arc1 + arc2 + tri1 + tri2` computed from the two intersection points. -/
def crossExpr (c1 c2 : CircleK ℝ) (p1 p2 : Pt ℝ) : ℝ :=
  kabs (c1.radius ^ 2 *
      myatan2 (cross (p1 - c1.center) (c2.center - c1.center))
        (dot (p1 - c1.center) (c2.center - c1.center))) +
    kabs (c2.radius ^ 2 *
      myatan2 (cross (p1 - c2.center) (c1.center - c2.center))
        (dot (p1 - c2.center) (c1.center - c2.center))) +
    cross (p1 - c1.center) (p2 - c1.center) / 2 +
    cross (p2 - c2.center) (p1 - c2.center) / 2

/-- `Circle.area_common_with_circle`.  (In the final branch the Python code
unpacks `p1, p2 = ...` from the intersection list, which there always has
exactly two points; other shapes would raise, modelled by the `0` default.) -/
def areaCommonCC (c1 c2 : CircleK ℝ) : ℝ :=
  if sideAparting c1 c2 = 1 ∨ sideTouching c1 c2 = 1 then
    min (areaC c1) (areaC c2)
  else if sideAparting c1 c2 = -1 ∨ sideTouching c1 c2 = -1 then 0
  else
    match crossingPointsCC c1 c2 with
    | [p1, p2] => crossExpr c1 c2 p1 p2
    | _ => 0

theorem absPt_sub_comm (a b : Pt ℝ) : absPt (a - b) = absPt (b - a) := by
  rw [absPt, absPt]
  congr 1
  simp only [Pt.sub_x, Pt.sub_y]
  ring

theorem kabs_sub_comm (x y : ℝ) : kabs (x - y) = kabs (y - x) := by
  rw [kabs_eq_abs, kabs_eq_abs, abs_sub_comm]

theorem sideTouching_comm (c1 c2 : CircleK ℝ) :
    sideTouching c1 c2 = sideTouching c2 c1 := by
  rw [sideTouching, sideTouching, absPt_sub_comm, kabs_sub_comm,
    add_comm c1.radius c2.radius]

theorem sideAparting_comm (c1 c2 : CircleK ℝ) :
    sideAparting c1 c2 = sideAparting c2 c1 := by
  rw [sideAparting, sideAparting, sideTouching_comm, absPt_sub_comm,
    kabs_sub_comm, add_comm c1.radius c2.radius]

theorem sideTouching_cases (c1 c2 : CircleK ℝ) :
    sideTouching c1 c2 = 1 ∨ sideTouching c1 c2 = -1 ∨
      sideTouching c1 c2 = 0 := by
  rw [sideTouching]
  by_cases h1 : equal (absPt (c1.center - c2.center))
      (kabs (c1.radius - c2.radius))
  · left; rw [if_pos h1]
  · rw [if_neg h1]
    by_cases h2 : equal (absPt (c1.center - c2.center))
        (c1.radius + c2.radius)
    · right; left; rw [if_pos h2]
    · right; right; rw [if_neg h2]

theorem sideAparting_cases (c1 c2 : CircleK ℝ) :
    sideAparting c1 c2 = 1 ∨ sideAparting c1 c2 = -1 ∨
      sideAparting c1 c2 = 0 := by
  rw [sideAparting]
  by_cases h1 : sideTouching c1 c2 ≠ 0
  · right; right; rw [if_pos h1]
  · rw [if_neg h1]
    by_cases h2 : absPt (c1.center - c2.center) < kabs (c1.radius - c2.radius)
    · left; rw [if_pos h2]
    · rw [if_neg h2]
      by_cases h3 : c1.radius + c2.radius < absPt (c1.center - c2.center)
      · right; left; rw [if_pos h3]
      · right; right; rw [if_neg h3]

theorem kabs_mul_atan2_neg (c y x : ℝ) :
    kabs (c * myatan2 (-y) x) = kabs (c * myatan2 y x) := by
  rw [kabs_eq_abs, kabs_eq_abs, abs_mul, abs_mul, abs_myatan2_neg]

theorem cross_self_pt (v : Pt ℝ) : cross v v = 0 := by
  rw [cross]; ring

theorem dot_self_nonneg_pt (v : Pt ℝ) : 0 ≤ dot v v := by
  rw [dot]
  nlinarith [sq_nonneg v.x, sq_nonneg v.y]

theorem kabs_zero : kabs (0 : ℝ) = 0 := by
  rw [kabs, if_neg (lt_irrefl 0)]

theorem Pt.neg_x' (a : Pt ℝ) : (-a).x = -a.x := rfl

theorem Pt.neg_y' (a : Pt ℝ) : (-a).y = -a.y := rfl

theorem absPt_ne_zero_of_not_equal {v : Pt ℝ} (h : ¬ equal (absPt v) 0) :
    absPt v ≠ 0 := fun h0 => h (by rw [h0]; exact equal_refl 0)

theorem cross_zero_left (v : Pt ℝ) : cross ⟨0, 0⟩ v = 0 := by
  rw [cross]; ring

theorem dot_zero_left (v : Pt ℝ) : dot ⟨0, 0⟩ v = 0 := by
  rw [dot]; ring

/-- When the centers are (tolerantly) coincident the unit vector degenerates
to zero, both candidate intersection points collapse onto the first center,
and every term of the mixed arc/triangle sum vanishes. -/
theorem crossExpr_degenerate (c1 c2 : CircleK ℝ)
    (hz : equal (absPt (c2.center - c1.center)) 0) :
    crossExpr c1 c2 (chordP c1 c2 + chordW c1 c2)
      (chordP c1 c2 - chordW c1 c2) = 0 := by
  have hu : ccUnit c1 c2 = ⟨0, 0⟩ := by rw [ccUnit, unitVector, if_pos hz]
  have hP : chordP c1 c2 = c1.center := by
    rw [chordP, hu]
    refine ptExt ?_ ?_ <;> simp
  have hW : chordW c1 c2 = ⟨0, 0⟩ := by
    rw [chordW, hu]
    refine ptExt ?_ ?_ <;> (simp [rotatePt])
  have hQ1 : chordP c1 c2 + chordW c1 c2 = c1.center := by
    rw [hP, hW]
    refine ptExt ?_ ?_ <;> simp
  have hQ2 : chordP c1 c2 - chordW c1 c2 = c1.center := by
    rw [hP, hW]
    refine ptExt ?_ ?_ <;> simp
  rw [crossExpr, hQ1, hQ2, sub_self_pt, cross_zero_left, dot_zero_left,
    cross_self_pt, myatan2_zero_of_nonneg (le_refl 0),
    myatan2_zero_of_nonneg (dot_self_nonneg_pt _), mul_zero, mul_zero,
    kabs_zero]
  norm_num [cross_zero_left]

theorem ccH_swap (c1 c2 : CircleK ℝ)
    (hz : ¬ equal (absPt (c2.center - c1.center)) 0) :
    ccH c2 c1 = ccH c1 c2 := by
  have hD : absPt (c1.center - c2.center) ≠ 0 :=
    absPt_ne_zero_of_not_equal (by rw [absPt_sub_comm]; exact hz)
  rw [ccH, ccH, ccCos, ccCos, ccDist, ccDist, absPt_sub_comm c2.center c1.center]
  congr 1
  field_simp
  ring

theorem chordP_swap (c1 c2 : CircleK ℝ)
    (hz : ¬ equal (absPt (c2.center - c1.center)) 0) :
    chordP c2 c1 = chordP c1 c2 := by
  have hz' : ¬ equal (absPt (c1.center - c2.center)) 0 := by
    rw [absPt_sub_comm]; exact hz
  have hD : absPt (c1.center - c2.center) ≠ 0 :=
    absPt_ne_zero_of_not_equal hz'
  rw [chordP, chordP, ccUnit, ccUnit, ccCos, ccCos, ccDist, ccDist,
    unitVector, unitVector, if_neg hz', if_neg hz,
    absPt_sub_comm c2.center c1.center]
  refine ptExt ?_ ?_ <;>
    · simp only [Pt.add_x, Pt.add_y, Pt.mul_x, Pt.mul_y, Pt.div_x, Pt.div_y,
        Pt.sub_x, Pt.sub_y]
      field_simp
      ring

theorem chordW_swap (c1 c2 : CircleK ℝ)
    (hz : ¬ equal (absPt (c2.center - c1.center)) 0) :
    chordW c2 c1 = -(chordW c1 c2) := by
  have hz' : ¬ equal (absPt (c1.center - c2.center)) 0 := by
    rw [absPt_sub_comm]; exact hz
  rw [chordW, chordW, ccH_swap c1 c2 hz, ccUnit, ccUnit,
    unitVector, unitVector, if_neg hz', if_neg hz,
    absPt_sub_comm c2.center c1.center]
  refine ptExt ?_ ?_ <;>
    · simp only [rotatePt, Pt.neg_x', Pt.neg_y', Pt.add_x, Pt.add_y,
        Pt.mul_x, Pt.mul_y, Pt.div_x, Pt.div_y, Pt.sub_x, Pt.sub_y]
      ring

theorem chordP_cross_b (c1 c2 : CircleK ℝ)
    (hz : ¬ equal (absPt (c2.center - c1.center)) 0) :
    cross (chordP c1 c2 - c2.center) (c1.center - c2.center) = 0 := by
  rw [chordP, ccUnit, ccCos, ccDist, unitVector, if_neg hz,
    absPt_sub_comm c1.center c2.center]
  simp only [cross, Pt.add_x, Pt.add_y, Pt.mul_x, Pt.mul_y, Pt.div_x,
    Pt.div_y, Pt.sub_x, Pt.sub_y]
  ring

theorem chordP_cross_a (c1 c2 : CircleK ℝ)
    (hz : ¬ equal (absPt (c2.center - c1.center)) 0) :
    cross (chordP c1 c2 - c1.center) (c2.center - c1.center) = 0 := by
  rw [chordP, ccUnit, ccCos, ccDist, unitVector, if_neg hz,
    absPt_sub_comm c1.center c2.center]
  simp only [cross, Pt.add_x, Pt.add_y, Pt.mul_x, Pt.mul_y, Pt.div_x,
    Pt.div_y, Pt.sub_x, Pt.sub_y]
  ring

theorem chordW_dot_b (c1 c2 : CircleK ℝ)
    (hz : ¬ equal (absPt (c2.center - c1.center)) 0) :
    dot (chordW c1 c2) (c1.center - c2.center) = 0 := by
  rw [chordW, ccUnit, unitVector, if_neg hz]
  simp only [rotatePt, Real.cos_pi_div_two, Real.sin_pi_div_two, dot,
    Pt.add_x, Pt.add_y, Pt.mul_x, Pt.mul_y, Pt.div_x, Pt.div_y,
    Pt.sub_x, Pt.sub_y]
  ring

theorem chordW_dot_a (c1 c2 : CircleK ℝ)
    (hz : ¬ equal (absPt (c2.center - c1.center)) 0) :
    dot (chordW c1 c2) (c2.center - c1.center) = 0 := by
  rw [chordW, ccUnit, unitVector, if_neg hz]
  simp only [rotatePt, Real.cos_pi_div_two, Real.sin_pi_div_two, dot,
    Pt.add_x, Pt.add_y, Pt.mul_x, Pt.mul_y, Pt.div_x, Pt.div_y,
    Pt.sub_x, Pt.sub_y]
  ring

/-- Reflecting the half-chord offset across the center line negates the
cross product against the center direction and preserves the dot product. -/
theorem cross_dot_reflect (P W A B : Pt ℝ)
    (hc : cross (P - B) (A - B) = 0) (hd : dot W (A - B) = 0) :
    cross (P - W - B) (A - B) = -(cross (P + W - B) (A - B)) ∧
      dot (P - W - B) (A - B) = dot (P + W - B) (A - B) := by
  constructor
  · simp only [cross, dot, Pt.sub_x, Pt.sub_y, Pt.add_x, Pt.add_y] at hc hd ⊢
    linear_combination 2 * hc
  · simp only [cross, dot, Pt.sub_x, Pt.sub_y, Pt.add_x, Pt.add_y] at hc hd ⊢
    linear_combination (-2 : ℝ) * hd

theorem crossExpr_swap_nondeg (c1 c2 : CircleK ℝ)
    (hz : ¬ equal (absPt (c2.center - c1.center)) 0) :
    crossExpr c2 c1 (chordP c2 c1 + chordW c2 c1)
        (chordP c2 c1 - chordW c2 c1) =
      crossExpr c1 c2 (chordP c1 c2 + chordW c1 c2)
        (chordP c1 c2 - chordW c1 c2) := by
  have hq1 : chordP c2 c1 + chordW c2 c1 = chordP c1 c2 - chordW c1 c2 := by
    rw [chordP_swap c1 c2 hz, chordW_swap c1 c2 hz]
    refine ptExt ?_ ?_ <;>
      simp only [Pt.add_x, Pt.add_y, Pt.sub_x, Pt.sub_y, Pt.neg_x',
        Pt.neg_y'] <;> ring
  have hq2 : chordP c2 c1 - chordW c2 c1 = chordP c1 c2 + chordW c1 c2 := by
    rw [chordP_swap c1 c2 hz, chordW_swap c1 c2 hz]
    refine ptExt ?_ ?_ <;>
      simp only [Pt.add_x, Pt.add_y, Pt.sub_x, Pt.sub_y, Pt.neg_x',
        Pt.neg_y'] <;> ring
  have hrb := cross_dot_reflect (chordP c1 c2) (chordW c1 c2)
    c1.center c2.center (chordP_cross_b c1 c2 hz) (chordW_dot_b c1 c2 hz)
  have hra := cross_dot_reflect (chordP c1 c2) (chordW c1 c2)
    c2.center c1.center (chordP_cross_a c1 c2 hz) (chordW_dot_a c1 c2 hz)
  rw [crossExpr, crossExpr, hq1, hq2, hrb.1, hrb.2, hra.1, hra.2,
    kabs_mul_atan2_neg, kabs_mul_atan2_neg]
  ring

theorem crossExpr_swap (c1 c2 : CircleK ℝ) :
    crossExpr c2 c1 (chordP c2 c1 + chordW c2 c1)
        (chordP c2 c1 - chordW c2 c1) =
      crossExpr c1 c2 (chordP c1 c2 + chordW c1 c2)
        (chordP c1 c2 - chordW c1 c2) := by
  by_cases hz : equal (absPt (c2.center - c1.center)) 0
  · have hz' : equal (absPt (c1.center - c2.center)) 0 := by
      rw [absPt_sub_comm]; exact hz
    rw [crossExpr_degenerate c1 c2 hz, crossExpr_degenerate c2 c1 hz']
  · exact crossExpr_swap_nondeg c1 c2 hz

/--
C2: circle–circle intersection area is commutative,
`c1.area_common_with_circle(c2) = c2.area_common_with_circle(c1)`, in every
configuration: nested or internally tangent (both give the smaller circle's
area), disjoint or externally tangent (both give `0`), and the
two-crossing-point case (the two intersection points are computed in swapped
order, the arc terms agree because `atan2` flips sign under the reflection
while `abs` ignores it, and the two triangle terms swap roles).
-/
theorem area_common_circles_comm (c1 c2 : CircleK ℝ) :
    areaCommonCC c1 c2 = areaCommonCC c2 c1 := by
  by_cases hb1 : sideAparting c1 c2 = 1 ∨ sideTouching c1 c2 = 1
  · have hb1' : sideAparting c2 c1 = 1 ∨ sideTouching c2 c1 = 1 := by
      rw [← sideAparting_comm, ← sideTouching_comm]; exact hb1
    rw [areaCommonCC, areaCommonCC, if_pos hb1, if_pos hb1', min_comm]
  · have hb1' : ¬ (sideAparting c2 c1 = 1 ∨ sideTouching c2 c1 = 1) := by
      rw [← sideAparting_comm, ← sideTouching_comm]; exact hb1
    by_cases hb2 : sideAparting c1 c2 = -1 ∨ sideTouching c1 c2 = -1
    · have hb2' : sideAparting c2 c1 = -1 ∨ sideTouching c2 c1 = -1 := by
        rw [← sideAparting_comm, ← sideTouching_comm]; exact hb2
      rw [areaCommonCC, areaCommonCC, if_neg hb1, if_neg hb1',
        if_pos hb2, if_pos hb2']
    · have hb2' : ¬ (sideAparting c2 c1 = -1 ∨ sideTouching c2 c1 = -1) := by
        rw [← sideAparting_comm, ← sideTouching_comm]; exact hb2
      have hT : sideTouching c1 c2 = 0 := by
        rcases sideTouching_cases c1 c2 with h | h | h
        · exact absurd (Or.inr h) hb1
        · exact absurd (Or.inr h) hb2
        · exact h
      have hA : sideAparting c1 c2 = 0 := by
        rcases sideAparting_cases c1 c2 with h | h | h
        · exact absurd (Or.inl h) hb1
        · exact absurd (Or.inl h) hb2
        · exact h
      have hT' : sideTouching c2 c1 = 0 := by
        rw [← sideTouching_comm]; exact hT
      have hA' : sideAparting c2 c1 = 0 := by
        rw [← sideAparting_comm]; exact hA
      have hl : crossingPointsCC c1 c2 =
          [chordP c1 c2 + chordW c1 c2, chordP c1 c2 - chordW c1 c2] := by
        rw [crossingPointsCC, if_neg (by rw [hT]; decide),
          if_neg (by rw [hT]; decide), if_pos hA]
      have hl' : crossingPointsCC c2 c1 =
          [chordP c2 c1 + chordW c2 c1, chordP c2 c1 - chordW c2 c1] := by
        rw [crossingPointsCC, if_neg (by rw [hT']; decide),
          if_neg (by rw [hT']; decide), if_pos hA']
      rw [areaCommonCC, areaCommonCC, if_neg hb1, if_neg hb1',
        if_neg hb2, if_neg hb2', hl, hl']
      exact (crossExpr_swap c1 c2).symm

/-- Witness for C10 at a concrete degenerate polygon. -/
theorem single_vertex_side_of_point_crashes_witness :
    (∀ q ∈ ([⟨0, 0⟩] : List (Pt ℝ)), ptEq ⟨0, 0⟩ q) ∧
      polyNorm ([⟨0, 0⟩, ⟨0, 0⟩] : List (Pt ℝ)) = [⟨0, 0⟩] ∧
      sideOfPoint (polyNorm ([⟨0, 0⟩, ⟨0, 0⟩] : List (Pt ℝ))) ⟨1, 2⟩ = none := by
  have h : ∀ q ∈ ([⟨0, 0⟩] : List (Pt ℝ)), ptEq ⟨0, 0⟩ q := by
    intro q hq
    rw [List.mem_singleton] at hq
    rw [hq]
    exact ptEq_refl _
  exact ⟨h, single_vertex_side_of_point_crashes ⟨0, 0⟩ [⟨0, 0⟩] ⟨1, 2⟩ h⟩

end

end Geo
